import Mathlib

/-!
Shallow embedding of `gopherdl.py`, a recursive gopher downloader, together
with proofs about its resource-identity model (`GopherURL`), its validator,
its menu parser (`getlinks`), its retrying fetch primitive (`download`), its
persistence step (`write_gopherurl` / `retrieve_menu_content`) and its
breadth-first crawl engine (`crawl`).

Python strings are modelled as `List Char` (`PyStr`); raw response bytes are
modelled the same way (the program only ever decodes them as text).  The
Python standard-library path helpers used by the source
(`str.split`, `str.strip`, `int`, `os.path.join`, `os.path.relpath`,
`os.path.normpath` for POSIX separators) are embedded below next to the
functions that call them.
-/

set_option autoImplicit false

/-- Python strings (and byte strings), modelled as lists of characters. -/
abbrev PyStr := List Char

/-- Python `s.split(sep)` for a one-character separator `sep`: splits at every
occurrence of `sep`, keeping empty fields, so the result always has one more
part than there are separators (`"".split(t) = [""]`). -/
def pySplitChar (sep : Char) : PyStr → List PyStr
  | [] => [[]]
  | c :: rest =>
    match pySplitChar sep rest with
    | [] => [[]]
    | part :: parts =>
      if c = sep then [] :: part :: parts else (c :: part) :: parts

/-- Python `s.strip(chars)`: removes the characters of `chars` from both ends. -/
def pyStripOn (chars : List Char) (s : PyStr) : PyStr :=
  ((s.dropWhile (· ∈ chars)).reverse.dropWhile (· ∈ chars)).reverse

/-- Python `s.strip()` with no argument: strips ASCII whitespace
(space, tab, newline, carriage return, vertical tab, form feed). -/
def pyStrip (s : PyStr) : PyStr :=
  pyStripOn [' ', '\t', '\n', '\r', '\x0b', '\x0c'] s

/-- Decimal digit value of a character, `none` for non-digits. -/
def pyDigit (c : Char) : Option Nat :=
  if '0' ≤ c ∧ c ≤ '9' then some (c.toNat - '0'.toNat) else none

/-- Accumulating decimal parser: `some` only if every character is a digit. -/
def pyDigitsAux : PyStr → Nat → Option Nat
  | [], acc => some acc
  | c :: rest, acc =>
    match pyDigit c with
    | some d => pyDigitsAux rest (acc * 10 + d)
    | none => none

/-- Python `int(s)` on an already-stripped string: an optional sign followed by
at least one decimal digit; `none` models the `ValueError` raised otherwise.
(Underscore digit separators and non-ASCII digits, which Python also accepts,
do not occur in gopher menus and are not modelled.) -/
def pyInt : PyStr → Option Int
  | [] => none
  | '+' :: rest => if rest = [] then none else (pyDigitsAux rest 0).map Int.ofNat
  | '-' :: rest => if rest = [] then none else (pyDigitsAux rest 0).map (fun n => -(n : Int))
  | c :: rest => (pyDigitsAux (c :: rest) 0).map Int.ofNat

/-- Boolean test that `p` is a prefix of `s` (Python `s.startswith(p)`). -/
def startsWithStr : PyStr → PyStr → Bool
  | [], _ => true
  | _ :: _, [] => false
  | a :: ps, b :: ss => decide (a = b) && startsWithStr ps ss

/-- Boolean test that `needle` occurs contiguously in `hay` (Python `needle in hay`). -/
def containsStr (needle : PyStr) : PyStr → Bool
  | [] => decide (needle = [])
  | c :: rest => startsWithStr needle (c :: rest) || containsStr needle rest

/-- POSIX `os.path.join` restricted to two components, as used by the source:
an absolute second component replaces the first; otherwise the parts are
joined, inserting `/` unless the first part is empty or already ends in `/`. -/
def osPathJoin (a b : PyStr) : PyStr :=
  if b.take 1 = ['/'] then b
  else if a = [] ∨ a.getLast? = some '/' then a ++ b
  else a ++ '/' :: b

/-- One step of `posixpath.normpath`'s component scan: drop empty and `.`
components; a `..` pops the previous component unless there is none to pop
(at the start of a relative path, or after an unpopped `..`), in which case it
is kept, or the path is absolute, in which case it is swallowed. -/
def normComponentStep (initialSlashes : Bool) (acc : List PyStr) (comp : PyStr) : List PyStr :=
  if comp = [] ∨ comp = ['.'] then acc
  else if comp ≠ ['.', '.'] ∨ (initialSlashes = false ∧ acc = []) ∨ acc.getLast? = some ['.', '.'] then
    acc ++ [comp]
  else acc.dropLast

/-- Python `posixpath.normpath`: collapses `.`, empty and `..` components; an empty
input normalises to `.`; a leading `//` (but not `///`) is preserved. -/
def posixNormpath (p : PyStr) : PyStr :=
  if p = [] then ['.']
  else
    let initialSlashes : Bool := decide (p.take 1 = ['/'])
    let doubled : Bool := decide (p.take 2 = ['/', '/'] ∧ p.take 3 ≠ ['/', '/', '/'])
    let comps := pySplitChar '/' p
    let newComps := comps.foldl (normComponentStep initialSlashes) []
    let pfx : PyStr := if initialSlashes then (if doubled then ['/', '/'] else ['/']) else []
    let r := pfx ++ List.intercalate ['/'] newComps
    if r = [] then ['.'] else r

/-- Models `os.path.relpath(p)` (with the default start, the current
directory) for the relative paths produced by `GopherURL.to_file_path`:
CPython raises `ValueError` on an empty path (`none` here) and otherwise the
result equals `posixpath.normpath p` whenever the current directory is deep
enough that the leading `..` components of the normalised path do not reach
the filesystem root — the intended deployment, which the program never
controls or inspects.  All concrete inputs used in the theorems below
normalise without reaching the root, so their value is independent of the
current directory. -/
def osPathRelpath (p : PyStr) : Option PyStr :=
  if p = [] then none else some (posixNormpath p)

/-- The resource identity of `gopherdl.py`: one `GopherURL(type, text, path,
host, port)`.  The Python `type` is a one-character string, modelled as a
`Char`. -/
structure GopherURL where
  type : Char
  text : PyStr
  path : PyStr
  host : PyStr
  port : Int
deriving DecidableEq

/-- The class attribute `GopherURL.invalid_types`: the fixed disallowed type tags
(search service, CSO, error, binary-8, telnet). -/
def GopherURL.invalid_types : List Char := ['7', '2', '3', '8', 'T']

/-- The method `GopherURL.is_menu`: the resource is a gopher menu (type tag `"1"`). -/
def GopherURL.is_menu (g : GopherURL) : Bool := g.type = '1'

/-- The method `GopherURL.to_url_path`: the local path without the menu filename —
`os.path.join(self.host, os.path.sep.join(self.path.strip("/").split("/")))`. -/
def GopherURL.to_url_path (g : GopherURL) : PyStr :=
  let path := pySplitChar '/' (pyStripOn ['/'] g.path)
  osPathJoin g.host (List.intercalate ['/'] path)

/-- The method `GopherURL.to_file_path`: the computed local storage path; menus get the
fixed filename `gophermap` appended. -/
def GopherURL.to_file_path (g : GopherURL) : PyStr :=
  let outfile := g.to_url_path
  if g.is_menu then osPathJoin outfile "gophermap".data else outfile

/-- The method `GopherURL.__eq__`: equality of two `GopherURL`s compares host and path
only. -/
def GopherURL.eq (a b : GopherURL) : Bool :=
  decide (a.host = b.host) && decide (a.path = b.path)

/-- The method `GopherURL.__hash__` is `hash(self.to_file_path())`: the hash is a
function of the storage-path string, so two instances hash alike exactly when
their storage paths coincide (Python's string hash is not injective, but
distinct strings are hashed by SipHash and collide only with negligible
probability; the model identifies the hash with the string it is taken of). -/
def GopherURL.hash_key (g : GopherURL) : PyStr := g.to_file_path

/-- The method `GopherURL.valid`: the validator.  `some b` models an ordinary boolean
return; `none` models the `ValueError` that `os.path.relpath` raises when the
computed storage path is the empty string (empty host together with a
slash-only selector on a non-menu resource). -/
def GopherURL.valid (g : GopherURL) : Option Bool :=
  if g.path.length = 0 then some false
  else if g.port ≤ 0 then some false
  else if g.type ∈ GopherURL.invalid_types then some false
  else if containsStr "URL:".data g.path then some false
  else
    match osPathRelpath g.to_file_path with
    | none => none
    | some file_path =>
      if startsWithStr g.host file_path = false then some false
      else some true

/-- The validator as §4.1/§8 of the specification words it: a conjunction of
the five conditions (selector non-empty, port positive, type allowed, no
embedded URL marker, relative storage path begins with the host). -/
def validSpec (g : GopherURL) : Bool :=
  !(decide (g.path = [])) && !(decide (g.port ≤ 0)) &&
    !(decide (g.type ∈ GopherURL.invalid_types)) &&
    !(containsStr "URL:".data g.path) &&
    startsWithStr g.host (posixNormpath g.to_file_path)

/-- The claim's notion of per-host containment: the normalised storage path is
the host directory itself or lies strictly inside it. -/
def insidePerHostDir (host p : PyStr) : Bool :=
  decide (p = host) || startsWithStr (host ++ ['/']) p

/-- Outcome of processing one menu line inside `getlinks`'s loop body. -/
inductive LineOutcome where
  | ok (g : GopherURL)
  | info
  | invalid (g : GopherURL)
  | err
deriving DecidableEq

/-- One iteration of `getlinks`'s per-line loop: split the stripped line on
tabs; an empty first token (`tokens[0][0]`) or fewer than four tokens raise
`IndexError` (`err`); informational lines (type `i`) are skipped; a
non-integer port raises `ValueError` (`err`), as does the validator's own
`ValueError` on the degenerate empty storage path, both caught by the same
handlers; a constructed URL failing the validator is skipped (`invalid`). -/
def processLine (line : PyStr) : LineOutcome :=
  let tokens := pySplitChar '\t' (pyStrip line)
  match tokens with
  | [] => .err
  | t0 :: rest =>
    match t0 with
    | [] => .err
    | typ :: textRest =>
      if typ = 'i' then .info
      else
        match rest with
        | t1 :: t2 :: t3 :: _ =>
          match pyInt (pyStrip t3) with
          | none => .err
          | some port =>
            let url : GopherURL := ⟨typ, textRest, pyStrip t1, pyStrip t2, port⟩
            match url.valid with
            | none => .err
            | some false => .invalid url
            | some true => .ok url
        | _ => .err

/-- The `GopherURL` a line contributes to `getlinks`'s output, if any. -/
def lineLink (line : PyStr) : Option GopherURL :=
  match processLine line with
  | .ok g => some g
  | _ => none

/-- A line that parses, is not informational, and passes the validator. -/
def lineAccepted (line : PyStr) : Bool := (lineLink line).isSome

/-- The function `getlinks(menucontent, config)`: split the menu text into lines on `"\n"`
and collect, in input order, the valid URLs of the well-formed,
non-informational lines; malformed and invalid lines are skipped. -/
def getlinks (menucontent : PyStr) : List GopherURL :=
  (pySplitChar '\n' menucontent).filterMap lineLink

/-- The transient network errors caught by `GopherURL.download`:
`socket.gaierror`, `TimeoutError`, `ConnectionRefusedError`. -/
inductive NetError where
  | gaierror
  | timeoutError
  | connectionRefused
deriving DecidableEq

/-- What one connect–send–receive attempt of `GopherURL.download` does on the
wire: either the peer closes the stream and the attempt returns the full
response, or one of the three caught errors is raised.  (Bytes a failing
attempt may already have accumulated are never observable: `buffer` is
rebuilt at the top of every iteration, and the in-loop `return buffer` is
reached only when the `try` block completes without exception.) -/
inductive Attempt where
  | success (data : PyStr)
  | failure (e : NetError)
deriving DecidableEq

/-- The backoff update in `GopherURL.download`:
`delay = delay + delay / 4 if delay != 0 else 1`.  The Python floats are
modelled as rationals. -/
def nextDelay (delay : ℚ) : ℚ :=
  if delay ≠ 0 then delay + delay / 4 else 1

/-- The method `GopherURL.download(delay)`, abstracted over the sequence of per-attempt
network outcomes: a successful attempt returns its bytes (the in-loop
`return buffer`); a caught error increments `retries`, and once `retries > 3`
the `break` exits the `while` loop *past* that in-loop `return`, so the
function falls off its own end and returns `None` (`none` here); otherwise
the delay is increased and the same resource is retried.  No exception of
the three caught classes escapes this loop.  The `[]` case models an
exhausted outcome oracle and is never reached from `downloadRun`'s call
sites in the theorems below. -/
def download : List Attempt → ℚ → ℕ → Option PyStr
  | [], _, _ => none
  | .success data :: _, _, _ => some data
  | .failure _ :: rest, delay, retries =>
    if retries + 1 > 3 then none
    else download rest (nextDelay delay) (retries + 1)

/-- The fetch `download` as called by the program: retry counter starts at zero. -/
def downloadRun (attempts : List Attempt) (delay : ℚ) : Option PyStr :=
  download attempts delay 0

/-- A flat model of the local filesystem: the association of (relative) file
paths to contents.  Two path strings denote the same file exactly when they
normalise alike (`os.path` resolves both against the working directory). -/
def FS := List (PyStr × PyStr)

/-- Python `os.path.exists` over the filesystem model. -/
def fsExists (fs : FS) (p : PyStr) : Bool :=
  fs.any (fun e => decide (posixNormpath e.1 = posixNormpath p))

/-- The helper `slurp` (read a file's bytes) over the filesystem model. -/
def fsRead (fs : FS) (p : PyStr) : Option PyStr :=
  (fs.find? (fun e => decide (posixNormpath e.1 = posixNormpath p))).map (·.2)

/-- The function `write_gopherurl(gurl, config, content)`: the output file is the storage
path joined *under the configured archive directory*; if it already exists
and clobbering is off, nothing is written; otherwise the given content (or,
when `content is None`, a fresh download `net` — possibly `None` itself
after retry exhaustion) is written provided it is truthy (neither `None` nor
empty).  (`mkdirs` only creates directories and is not modelled in the flat
file map.) -/
def write_gopherurl (fs : FS) (archive_directory : PyStr) (clobber : Bool)
    (gurl : GopherURL) (content : Option PyStr) (net : Option PyStr) : FS :=
  let outfile := osPathJoin archive_directory gurl.to_file_path
  if fsExists fs outfile && !clobber then fs
  else
    match (match content with | some c => some c | none => net) with
    | some bytes => if bytes ≠ [] then (outfile, bytes) :: fs else fs
    | none => fs

/-- The closure `retrieve_menu_content(gurl)` from `crawl`: if a file exists at the *bare*
storage path `gurl.to_file_path()` — note: not under the archive directory —
and clobbering is off, it is slurped; otherwise the menu is downloaded from
the network (`net` abstracts `download`'s result, which is `None` after
retry exhaustion and is passed through; decoding is the identity in this
model, and the surrounding `except` handler is unreachable because
`download` already catches those errors). -/
def retrieve_menu_content (fs : FS) (clobber : Bool) (gurl : GopherURL)
    (net : Option PyStr) : Option PyStr :=
  let path := gurl.to_file_path
  if fsExists fs path && !clobber then fsRead fs path
  else net

/-- The identity under which Python's `set` of `GopherURL`s actually
deduplicates: membership tests succeed exactly on equal `__hash__` (equal
storage-path strings) *and* equal `__eq__` (equal host and path), which
together amount to equal host, path and menu-status
(see `pySetMem_iff_gkey`). -/
def GopherURL.gkey (g : GopherURL) : PyStr × PyStr × Bool :=
  (g.host, g.path, g.is_menu)

/-- The keys of the resources already in the visited set. -/
def keysOf (s : Finset GopherURL) : Finset (PyStr × PyStr × Bool) :=
  s.image GopherURL.gkey

/-- Python `set(...)`/`set.difference`: scan a list keeping the first
representative of each identity key not already `seen`. -/
def dedupKeysAux (seen : Finset (PyStr × PyStr × Bool)) : List GopherURL → List GopherURL
  | [] => []
  | g :: rest =>
    if g.gkey ∈ seen then dedupKeysAux seen rest
    else g :: dedupKeysAux (insert g.gkey seen) rest

/-- The guard `depth > config.maxdepth` where `maxdepth` is `math.inf` (`none`, the
default: never exceeded) or an integer. -/
def depthExceeded (depth : Int) (maxdepth : Option Int) : Bool :=
  match maxdepth with
  | none => false
  | some m => decide (m < depth)

/-- The `for menu in menus` loop of `crawl`, with the expansion pipeline
`gopher_urls_from_menu_link` (fetch → parse → scope-filter) abstracted as
`expand`, since it performs network I/O.  Each iteration takes the next
worklist entry (Python's `for` over a growing list), breaks if the depth
bound is exceeded, and otherwise merges the expansion's new-by-identity
members into `gurls`, appends the menu-typed new members to the worklist, and
increments `depth`.  The returned list records the expanded resources in
order.  `fuel` bounds the number of iterations so the recursion is
structural; `crawlLoop_isSome_of_fuel` shows a sufficient fuel always exists,
which is the termination content of the Python loop. -/
def crawlLoop (expand : GopherURL → List GopherURL) (maxdepth : Option Int) :
    ℕ → List GopherURL → Finset GopherURL → Int → List GopherURL →
    Option (Finset GopherURL × List GopherURL)
  | 0, _, _, _, _ => none
  | _ + 1, [], gurls, _, log => some (gurls, log)
  | fuel + 1, menu :: rest, gurls, depth, log =>
    if depthExceeded depth maxdepth = true then some (gurls, log)
    else
      let fresh := dedupKeysAux (keysOf gurls) (expand menu)
      crawlLoop expand maxdepth fuel (rest ++ fresh.filter GopherURL.is_menu)
        (gurls ∪ fresh.toFinset) (depth + 1) (log ++ [menu])

/-- The function `crawl(root_gurl, config)`: expand the root once, seed `gurls` with the
deduplicated children (the root itself is *not* added), seed the worklist
with the menu-typed children plus the root, then run the loop from depth 0.
The second component of the result is the expansion log (which resources
were fetched for expansion, in order), the first is the returned `gurls`. -/
def crawl (expand : GopherURL → List GopherURL) (maxdepth : Option Int)
    (root : GopherURL) (fuel : ℕ) : Option (Finset GopherURL × List GopherURL) :=
  let children := dedupKeysAux ∅ (expand root)
  crawlLoop expand maxdepth fuel (children.filter GopherURL.is_menu ++ [root])
    children.toFinset 0 [root]

/-- The first worklist entry `crawl`'s loop processes: the first queued menu
child, or the root again when no menu children were discovered. -/
def firstQueuedMenu (expand : GopherURL → List GopherURL) (root : GopherURL) : GopherURL :=
  ((dedupKeysAux ∅ (expand root)).filter GopherURL.is_menu).headD root

/-- A visited set whose members are pairwise distinguished by their identity
key — the invariant Python's `set` maintains for `gurls`. -/
def SetKeyNodup (s : Finset GopherURL) : Prop :=
  ∀ a ∈ s, ∀ b ∈ s, a.gkey = b.gkey → a = b

/-- The number of entries of `l` whose identity key is `k` (how often a
resource identity was fetched for expansion, when `l` is an expansion log). -/
def countKey (k : PyStr × PyStr × Bool) (l : List GopherURL) : ℕ :=
  l.countP (fun x => decide (x.gkey = k))

/-- A concrete menu root on host `h`. -/
def urlRoot : GopherURL := ⟨'1', [], "/".data, "h".data, 70⟩

/-- A concrete menu child `/m` of `urlRoot`. -/
def urlMenuSub : GopherURL := ⟨'1', [], "/m".data, "h".data, 70⟩

/-- A concrete file `/m/f` two levels below `urlRoot`. -/
def urlFileDeep : GopherURL := ⟨'0', [], "/m/f".data, "h".data, 70⟩

/-- A concrete file child `/c.txt` of `urlRoot`. -/
def urlFileChild : GopherURL := ⟨'0', [], "/c.txt".data, "h".data, 70⟩

/-- A menu-typed link to selector `/b` on host `h`. -/
def urlMenuB : GopherURL := ⟨'1', [], "/b".data, "h".data, 70⟩

/-- A file-typed link to the same selector `/b` on the same host. -/
def urlFileB : GopherURL := ⟨'0', [], "/b".data, "h".data, 70⟩

/-- A menu link back to the root selector `/`, with a different display text
than `urlRoot` (as a link parsed out of a menu would have). -/
def urlRootBack : GopherURL := ⟨'1', "back".data, "/".data, "h".data, 70⟩

/-- Expansion graph `urlRoot → urlMenuSub → urlFileDeep`. -/
def expandChain (g : GopherURL) : List GopherURL :=
  if g = urlRoot then [urlMenuSub] else if g = urlMenuSub then [urlFileDeep] else []

/-- Expansion graph in which the root's only child is a file. -/
def expandSingleFile (g : GopherURL) : List GopherURL :=
  if g = urlRoot then [urlFileChild] else []

/-- A cyclic menu graph with a menu-typed and a file-typed link to the same
selector `/b`: the root menu links to `/b` (twice, with different type tags)
and the `/b` menu links back to the root. -/
def expandCycleDup (g : GopherURL) : List GopherURL :=
  if g.path = "/".data then [urlMenuB, urlFileB]
  else if g.path = "/b".data then [urlRootBack] else []

/-- A plain two-menu cycle: the root menu links to `/b` and `/b` links back. -/
def expandCycleW (g : GopherURL) : List GopherURL :=
  if g.path = "/".data then [urlMenuB]
  else if g.path = "/b".data then [urlRoot] else []

theorem lineLink_eq_none_of_err {l : PyStr} (h : processLine l = .err) : lineLink l = none := by
  simp [lineLink, h]

theorem length_filterMap_lineLink : ∀ l : List PyStr, (∀ x ∈ l, lineAccepted x = true) →
    (l.filterMap lineLink).length = l.length := by
  intro l
  induction l with
  | nil => intro _; rfl
  | cons a t ih =>
    intro h
    have ha := h a (List.mem_cons_self a t)
    rcases hl : lineLink a with _ | g
    · rw [lineAccepted, hl] at ha
      simp at ha
    · simp only [List.filterMap_cons, hl, List.length_cons]
      rw [ih (fun x hx => h x (List.mem_cons_of_mem a hx))]

/-- C7: a menu whose line split consists of well-formed, non-informational,
valid lines around a single malformed line yields exactly the resources of
the good lines, in input order; the malformed line contributes nothing and no
exception escapes (`getlinks` is total). -/
theorem c7_parser_skips_malformed_line (s m : PyStr) (pre post : List PyStr)
    (hsplit : pySplitChar '\n' s = pre ++ m :: post)
    (hpre : ∀ l ∈ pre, lineAccepted l = true)
    (hpost : ∀ l ∈ post, lineAccepted l = true)
    (hm : processLine m = .err) :
    getlinks s = pre.filterMap lineLink ++ post.filterMap lineLink ∧
      (getlinks s).length = pre.length + post.length := by
  have hnone := lineLink_eq_none_of_err hm
  have hmain : getlinks s = pre.filterMap lineLink ++ post.filterMap lineLink := by
    rw [getlinks, hsplit, List.filterMap_append, List.filterMap_cons, hnone]
  refine ⟨hmain, ?_⟩
  rw [hmain, List.length_append, length_filterMap_lineLink pre hpre,
    length_filterMap_lineLink post hpost]

/-- C7 witness: a three-line menu whose middle line is malformed parses to
exactly the two resources of the outer lines. -/
theorem c7_parser_skips_malformed_line_witness :
    (getlinks "1A\t/a\th.org\t70\njunk\n0B\t/b\th.org\t70".data).length = 1 + 1 :=
  (c7_parser_skips_malformed_line "1A\t/a\th.org\t70\njunk\n0B\t/b\th.org\t70".data
    "junk".data ["1A\t/a\th.org\t70".data] ["0B\t/b\th.org\t70".data]
    (by decide) (by decide) (by decide) (by decide)).2

theorem valid_eq_validSpec (g : GopherURL) (h : g.to_file_path ≠ []) :
    g.valid = some (validSpec g) := by
  unfold GopherURL.valid
  simp only [osPathRelpath, if_neg h]
  by_cases h1 : g.path.length = 0
  · have hp : g.path = [] := List.length_eq_zero.mp h1
    simp [validSpec, h1, hp]
  · have hp : ¬ g.path = [] := fun he => h1 (by simp [he])
    rw [if_neg h1]
    by_cases h2 : g.port ≤ 0
    · simp [validSpec, h2, hp]
    · rw [if_neg h2]
      by_cases h3 : g.type ∈ GopherURL.invalid_types
      · simp [validSpec, h3, hp, h2]
      · rw [if_neg h3]
        by_cases h4 : containsStr "URL:".data g.path = true
        · simp [validSpec, h4, hp, h2, h3]
        · have h4' : containsStr "URL:".data g.path = false := by
            cases hb : containsStr "URL:".data g.path
            · rfl
            · exact absurd hb h4
          rw [if_neg h4]
          cases h5 : startsWithStr g.host (posixNormpath g.to_file_path)
          · simp [validSpec, h5, hp, h2, h3, h4']
          · simp [validSpec, h5, hp, h2, h3, h4']

theorem valid_ne_true_of_empty_file_path (g : GopherURL) (h : g.to_file_path = []) :
    g.valid ≠ some true := by
  unfold GopherURL.valid
  simp only [osPathRelpath, h]
  split_ifs <;> simp

theorem valid_true_startsWith {g : GopherURL} (hg : g.valid = some true) :
    startsWithStr g.host (posixNormpath g.to_file_path) = true := by
  have hne : g.to_file_path ≠ [] := fun he => valid_ne_true_of_empty_file_path g he hg
  rw [valid_eq_validSpec g hne] at hg
  have : validSpec g = true := by injection hg
  simp only [validSpec, Bool.and_eq_true] at this
  exact this.2

/-- C1 counterexample: the selector `"/../example.orgX/data"` on host
`example.org` contains a parent-directory segment that climbs out of the
per-host directory `example.org/` (its normalised storage path is
`example.orgX/data`, a sibling directory), yet the validator accepts it,
because the containment check is a string-prefix test against the host. -/
theorem c1_counterexample_sibling_escape :
    GopherURL.valid ⟨'0', [], "/../example.orgX/data".data, "example.org".data, 70⟩ = some true ∧
      insidePerHostDir "example.org".data
        (posixNormpath (GopherURL.to_file_path
          ⟨'0', [], "/../example.orgX/data".data, "example.org".data, 70⟩)) = false := by
  decide

/-- C1 (amended): the regression selector `"/../../etc/passwd"` on
`example.org` is invalid (for a file as well as for a menu resource), and
every resource the validator accepts has a normalised storage path that
begins with the resource's host *as a string prefix* — which is the exact
containment guarantee the code provides (it does not confine the path to the
per-host directory itself; see the counterexample). -/
theorem c1_amended_host_string_containment :
    (GopherURL.valid ⟨'0', [], "/../../etc/passwd".data, "example.org".data, 70⟩ = some false) ∧
    (GopherURL.valid ⟨'1', [], "/../../etc/passwd".data, "example.org".data, 70⟩ = some false) ∧
    ∀ g : GopherURL, g.valid = some true →
      startsWithStr g.host (posixNormpath g.to_file_path) = true :=
  ⟨by decide, by decide, fun _ hg => valid_true_startsWith hg⟩

/-- C1 witness: a benign accepted resource, whose normalised storage path
does begin with its host. -/
theorem c1_amended_host_string_containment_witness :
    startsWithStr "example.org".data
      (posixNormpath (GopherURL.to_file_path
        ⟨'0', [], "/a".data, "example.org".data, 70⟩)) = true :=
  c1_amended_host_string_containment.2.2
    ⟨'0', [], "/a".data, "example.org".data, 70⟩ (by decide)

/-- C9 counterexample: for the resource `GopherURL('0', '', '/', '', 70)`
(empty host, root selector, file type) none of the claimed rejection
conditions holds, yet `valid` neither returns `true` nor `false`: its
storage path is the empty string, on which `os.path.relpath` raises
`ValueError`, so the call raises instead of returning. -/
theorem c9_counterexample_validator_raises :
    (GopherURL.path ⟨'0', [], "/".data, [], 70⟩ ≠ [] ∧
      ¬ GopherURL.port ⟨'0', [], "/".data, [], 70⟩ ≤ 0 ∧
      GopherURL.type ⟨'0', [], "/".data, [], 70⟩ ∉ GopherURL.invalid_types ∧
      containsStr "URL:".data (GopherURL.path ⟨'0', [], "/".data, [], 70⟩) = false) ∧
    GopherURL.valid ⟨'0', [], "/".data, [], 70⟩ = none := by
  decide

/-- C9 (amended): whenever the computed storage path is non-empty (which
fails only for an empty host with a slash-only selector on a non-menu
resource), `valid` returns exactly the conjunction stated by the
specification: selector non-empty, port positive, type tag allowed, no
embedded `URL:` marker, and the normalised storage path begins with the
host.  On the degenerate input it raises instead of returning. -/
theorem c9_amended_validator_characterisation (g : GopherURL) (h : g.to_file_path ≠ []) :
    g.valid = some (validSpec g) :=
  valid_eq_validSpec g h

/-- C9 witness: the characterisation evaluated on a concrete resource. -/
theorem c9_amended_validator_characterisation_witness :
    GopherURL.valid ⟨'0', [], "/a".data, "example.org".data, 70⟩ =
      some (validSpec ⟨'0', [], "/a".data, "example.org".data, 70⟩) :=
  c9_amended_validator_characterisation ⟨'0', [], "/a".data, "example.org".data, 70⟩ (by decide)

/-- C5: two `GopherURL`s with the same host and path but different type tags
(a menu and a file) compare equal under `__eq__`, yet their hashes are taken
of different storage-path strings (`example.org/docs/gophermap` versus
`example.org/docs`), so equal instances do not have equal hashes: the
eq/hash consistency the claim states is violated by the code. -/
theorem c5_eq_hash_inconsistent :
    GopherURL.eq ⟨'1', [], "/docs".data, "example.org".data, 70⟩
        ⟨'0', [], "/docs".data, "example.org".data, 70⟩ = true ∧
      GopherURL.hash_key ⟨'1', [], "/docs".data, "example.org".data, 70⟩ ≠
        GopherURL.hash_key ⟨'0', [], "/docs".data, "example.org".data, 70⟩ := by
  decide

/-- C8: on each of the three caught transient errors (address-resolution
failure, timeout, connection refused) the retry counter is incremented and
the same resource is retried with the increased delay `delay + delay/4` (or
`1` if the delay was `0` — so the delay strictly increases whenever it was
non-negative); once retries exceed 3 — on the fourth caught failure — the
`break` exits the loop past the in-loop `return`, so the fetch aborts for
this resource with the empty result `None` (no content), and no exception of
the caught classes escapes this layer (`download` is total). -/
theorem c8_retry_policy (e1 e2 e3 e4 : NetError) (rest : List Attempt) (d : ℚ) :
    downloadRun (.failure e1 :: .failure e2 :: .failure e3 :: .failure e4 :: rest) d = none ∧
    (∀ (b : PyStr) (rest2 : List Attempt), downloadRun (.success b :: rest2) d = some b) ∧
    (∀ (e : NetError) (rest2 : List Attempt) (r : ℕ), r + 1 ≤ 3 →
      download (.failure e :: rest2) d r = download rest2 (nextDelay d) (r + 1)) ∧
    nextDelay 0 = 1 ∧
    (d ≠ 0 → nextDelay d = d + d / 4) ∧
    (0 ≤ d → d < nextDelay d) := by
  refine ⟨rfl, fun b rest2 => rfl, ?_, by norm_num [nextDelay],
    fun hd => by simp [nextDelay, hd], ?_⟩
  · intro e rest2 r hr
    rw [download, if_neg (by omega)]
  · intro hd
    by_cases h0 : d = 0
    · subst h0; norm_num [nextDelay]
    · have hdpos : 0 < d := lt_of_le_of_ne hd (Ne.symm h0)
      rw [nextDelay, if_pos h0]
      linarith

/-- C8 witness: the retry policy evaluated at delay 3/2 and concrete
failure sequences. -/
theorem c8_retry_policy_witness :
    downloadRun [.failure .timeoutError, .failure .gaierror,
        .failure .connectionRefused, .failure .timeoutError] (3/2) = none ∧
      download [Attempt.failure .gaierror] (3/2 : ℚ) 0 = download [] (nextDelay (3/2)) 1 ∧
      nextDelay (3/2 : ℚ) = 3/2 + (3/2) / 4 ∧ (3/2 : ℚ) < nextDelay (3/2) :=
  ⟨(c8_retry_policy .timeoutError .gaierror .connectionRefused .timeoutError [] (3/2)).1,
    (c8_retry_policy .timeoutError .gaierror .connectionRefused .timeoutError
      [] (3/2)).2.2.1 .gaierror [] 0 (by norm_num),
    (c8_retry_policy .timeoutError .gaierror .connectionRefused .timeoutError
      [] (3/2)).2.2.2.2.1 (by norm_num),
    (c8_retry_policy .timeoutError .gaierror .connectionRefused .timeoutError
      [] (3/2)).2.2.2.2.2 (by norm_num)⟩

/-- C10: `write_gopherurl` persists a menu's bytes under the configured
archive directory (`./archive/example.org/gophermap`), and that file then
exists there; but `retrieve_menu_content`'s cache check looks at the bare
storage path `example.org/gophermap` — without the archive-directory
prefix — finds nothing, and fetches from the network even though a persisted
copy exists and clobbering is disabled. -/
theorem c10_cache_check_misses_archive_copy :
    (fsExists
        (write_gopherurl [] "./archive/".data false ⟨'1', [], "/".data, "example.org".data, 70⟩
          (some "PERSISTED".data) none)
        (osPathJoin "./archive/".data
          (GopherURL.to_file_path ⟨'1', [], "/".data, "example.org".data, 70⟩)) = true) ∧
    (fsExists
        (write_gopherurl [] "./archive/".data false ⟨'1', [], "/".data, "example.org".data, 70⟩
          (some "PERSISTED".data) none)
        (GopherURL.to_file_path ⟨'1', [], "/".data, "example.org".data, 70⟩) = false) ∧
    retrieve_menu_content
        (write_gopherurl [] "./archive/".data false ⟨'1', [], "/".data, "example.org".data, 70⟩
          (some "PERSISTED".data) none)
        false ⟨'1', [], "/".data, "example.org".data, 70⟩ (some "FROMNETWORK".data) =
      some "FROMNETWORK".data := by
  decide

theorem osPathJoin_gophermap_ne (u : PyStr) : osPathJoin u "gophermap".data ≠ u := by
  intro h
  have hlen := congrArg List.length h
  rw [osPathJoin] at hlen
  split_ifs at hlen with h1 h2
  · exact absurd h1 (by decide)
  · have h9 : ("gophermap".data).length = 9 := rfl
    rw [List.length_append, h9] at hlen
    omega
  · have h10 : ('/' :: "gophermap".data).length = 10 := rfl
    rw [List.length_append, h10] at hlen
    omega

theorem to_file_path_congr {a b : GopherURL} (hh : a.host = b.host) (hp : a.path = b.path)
    (hm : a.is_menu = b.is_menu) : a.to_file_path = b.to_file_path := by
  unfold GopherURL.to_file_path GopherURL.to_url_path
  rw [hh, hp, hm]

/-- Justification of the crawl model's identity key: a Python `set` of
`GopherURL`s treats `b` as already present for `a` exactly when `__eq__`
holds *and* the hashes agree (equal storage-path strings), which together
amount to equality of host, path and menu-status — `GopherURL.gkey`. -/
theorem pySetMem_iff_gkey (a b : GopherURL) :
    (GopherURL.eq a b = true ∧ a.hash_key = b.hash_key) ↔ a.gkey = b.gkey := by
  constructor
  · rintro ⟨heq, hhash⟩
    rw [GopherURL.eq, Bool.and_eq_true, decide_eq_true_eq, decide_eq_true_eq] at heq
    obtain ⟨hh, hp⟩ := heq
    have hm : a.is_menu = b.is_menu := by
      by_contra hne
      have hu : a.to_url_path = b.to_url_path := by
        unfold GopherURL.to_url_path
        rw [hh, hp]
      rw [GopherURL.hash_key, GopherURL.hash_key, GopherURL.to_file_path,
        GopherURL.to_file_path] at hhash
      cases hma : a.is_menu <;> cases hmb : b.is_menu
      · exact hne (hma.trans hmb.symm)
      · rw [if_neg (by simp [hma]), if_pos hmb, hu] at hhash
        exact osPathJoin_gophermap_ne _ hhash.symm
      · rw [if_pos hma, if_neg (by simp [hmb]), hu] at hhash
        exact osPathJoin_gophermap_ne _ hhash
      · exact hne (hma.trans hmb.symm)
    rw [GopherURL.gkey, GopherURL.gkey, hh, hp, hm]
  · intro hk
    rw [GopherURL.gkey, GopherURL.gkey, Prod.mk.injEq, Prod.mk.injEq] at hk
    obtain ⟨hh, hp, hm⟩ := hk
    exact ⟨by rw [GopherURL.eq, hh, hp]; simp,
      by rw [GopherURL.hash_key, GopherURL.hash_key]; exact to_file_path_congr hh hp hm⟩

theorem dedupKeysAux_subset :
    ∀ (l : List GopherURL) (seen : Finset (PyStr × PyStr × Bool)) (x : GopherURL),
      x ∈ dedupKeysAux seen l → x ∈ l := by
  intro l
  induction l with
  | nil => intro seen x hx; simp [dedupKeysAux] at hx
  | cons g rest ih =>
    intro seen x hx
    by_cases hg : g.gkey ∈ seen
    · rw [dedupKeysAux, if_pos hg] at hx
      exact List.mem_cons_of_mem _ (ih _ _ hx)
    · rw [dedupKeysAux, if_neg hg] at hx
      rcases List.mem_cons.mp hx with h | h
      · exact h ▸ List.mem_cons_self _ _
      · exact List.mem_cons_of_mem _ (ih _ _ h)

theorem dedupKeysAux_key_not_seen :
    ∀ (l : List GopherURL) (seen : Finset (PyStr × PyStr × Bool)) (x : GopherURL),
      x ∈ dedupKeysAux seen l → x.gkey ∉ seen := by
  intro l
  induction l with
  | nil => intro seen x hx; simp [dedupKeysAux] at hx
  | cons g rest ih =>
    intro seen x hx
    by_cases hg : g.gkey ∈ seen
    · rw [dedupKeysAux, if_pos hg] at hx
      exact ih _ _ hx
    · rw [dedupKeysAux, if_neg hg] at hx
      rcases List.mem_cons.mp hx with h | h
      · exact h ▸ hg
      · intro hmem
        exact ih _ _ h (Finset.mem_insert_of_mem hmem)

theorem dedupKeysAux_pairwise :
    ∀ (l : List GopherURL) (seen : Finset (PyStr × PyStr × Bool)),
      (dedupKeysAux seen l).Pairwise (fun a b => a.gkey ≠ b.gkey) := by
  intro l
  induction l with
  | nil => intro seen; simp [dedupKeysAux]
  | cons g rest ih =>
    intro seen
    by_cases hg : g.gkey ∈ seen
    · rw [dedupKeysAux, if_pos hg]
      exact ih _
    · rw [dedupKeysAux, if_neg hg]
      refine List.Pairwise.cons ?_ (ih _)
      intro b hb hgb
      exact dedupKeysAux_key_not_seen _ _ _ hb (hgb ▸ Finset.mem_insert_self _ _)

theorem dedupKeysAux_cover :
    ∀ (l : List GopherURL) (seen : Finset (PyStr × PyStr × Bool)) (c : GopherURL),
      c ∈ l → c.gkey ∈ seen ∨ ∃ x ∈ dedupKeysAux seen l, x.gkey = c.gkey := by
  intro l
  induction l with
  | nil => intro seen c hc; simp at hc
  | cons g rest ih =>
    intro seen c hc
    by_cases hg : g.gkey ∈ seen
    · rw [dedupKeysAux, if_pos hg]
      rcases List.mem_cons.mp hc with h | h
      · exact Or.inl (h ▸ hg)
      · exact ih _ _ h
    · rw [dedupKeysAux, if_neg hg]
      rcases List.mem_cons.mp hc with h | h
      · exact Or.inr ⟨g, List.mem_cons_self _ _, (h ▸ rfl : g.gkey = c.gkey)⟩
      · rcases ih (insert g.gkey seen) _ h with hk | ⟨x, hx, hkx⟩
        · rcases Finset.mem_insert.mp hk with hk | hk
          · exact Or.inr ⟨g, List.mem_cons_self _ _, hk.symm⟩
          · exact Or.inl hk
        · exact Or.inr ⟨x, List.mem_cons_of_mem _ hx, hkx⟩

theorem nodup_of_pairwise_keys {l : List GopherURL}
    (h : l.Pairwise (fun a b => a.gkey ≠ b.gkey)) : l.Nodup :=
  h.imp (fun hab he => hab (congrArg GopherURL.gkey he))

theorem countP_key_le_one (k : PyStr × PyStr × Bool) :
    ∀ l : List GopherURL, l.Pairwise (fun a b => a.gkey ≠ b.gkey) → countKey k l ≤ 1 := by
  intro l
  induction l with
  | nil => intro _; simp [countKey]
  | cons a t ih =>
    intro h
    rw [List.pairwise_cons] at h
    rw [countKey, List.countP_cons]
    by_cases ha : a.gkey = k
    · have hz : t.countP (fun x => decide (x.gkey = k)) = 0 := by
        rw [List.countP_eq_zero]
        intro x hx
        simp only [decide_eq_true_eq]
        intro hxk
        exact h.1 x hx (ha.trans hxk.symm)
      simp [hz, ha]
    · simp only [ha, decide_False]
      simpa [countKey] using ih h.2

theorem crawlLoop_subset (expand : GopherURL → List GopherURL) (md : Option Int) :
    ∀ (fuel : ℕ) (ws : List GopherURL) (gurls : Finset GopherURL) (depth : Int)
      (log : List GopherURL) (S : Finset GopherURL) (L : List GopherURL),
      crawlLoop expand md fuel ws gurls depth log = some (S, L) → gurls ⊆ S := by
  intro fuel
  induction fuel with
  | zero => intro ws gurls depth log S L h; simp [crawlLoop] at h
  | succ n ih =>
    intro ws gurls depth log S L h
    cases ws with
    | nil =>
      simp only [crawlLoop, Option.some.injEq, Prod.mk.injEq] at h
      rw [← h.1]
    | cons menu rest =>
      rw [crawlLoop] at h
      by_cases hd : depthExceeded depth md = true
      · rw [if_pos hd] at h
        simp only [Option.some.injEq, Prod.mk.injEq] at h
        rw [← h.1]
      · rw [if_neg hd] at h
        exact Finset.Subset.trans Finset.subset_union_left (ih _ _ _ _ _ _ h)

theorem crawlLoop_log_mem (expand : GopherURL → List GopherURL) (md : Option Int) :
    ∀ (fuel : ℕ) (ws : List GopherURL) (gurls : Finset GopherURL) (depth : Int)
      (log : List GopherURL) (S : Finset GopherURL) (L : List GopherURL),
      crawlLoop expand md fuel ws gurls depth log = some (S, L) → ∀ x ∈ log, x ∈ L := by
  intro fuel
  induction fuel with
  | zero => intro ws gurls depth log S L h; simp [crawlLoop] at h
  | succ n ih =>
    intro ws gurls depth log S L h
    cases ws with
    | nil =>
      simp only [crawlLoop, Option.some.injEq, Prod.mk.injEq] at h
      rw [← h.2]
      exact fun x hx => hx
    | cons menu rest =>
      rw [crawlLoop] at h
      by_cases hd : depthExceeded depth md = true
      · rw [if_pos hd] at h
        simp only [Option.some.injEq, Prod.mk.injEq] at h
        rw [← h.2]
        exact fun x hx => hx
      · rw [if_neg hd] at h
        intro x hx
        exact ih _ _ _ _ _ _ h x (List.mem_append_left _ hx)

theorem crawlLoop_covered (expand : GopherURL → List GopherURL) (md : Option Int) :
    ∀ (fuel : ℕ) (ws : List GopherURL) (gurls : Finset GopherURL) (depth : Int)
      (log : List GopherURL) (S : Finset GopherURL) (L : List GopherURL),
      crawlLoop expand md fuel ws gurls depth log = some (S, L) →
      (∀ m ∈ log, ∀ c ∈ expand m, ∃ x ∈ gurls, x.gkey = c.gkey) →
      ∀ m ∈ L, ∀ c ∈ expand m, ∃ x ∈ S, x.gkey = c.gkey := by
  intro fuel
  induction fuel with
  | zero => intro ws gurls depth log S L h; simp [crawlLoop] at h
  | succ n ih =>
    intro ws gurls depth log S L h hinv
    cases ws with
    | nil =>
      simp only [crawlLoop, Option.some.injEq, Prod.mk.injEq] at h
      rw [← h.1, ← h.2]
      exact hinv
    | cons menu rest =>
      rw [crawlLoop] at h
      by_cases hd : depthExceeded depth md = true
      · rw [if_pos hd] at h
        simp only [Option.some.injEq, Prod.mk.injEq] at h
        rw [← h.1, ← h.2]
        exact hinv
      · rw [if_neg hd] at h
        refine ih _ _ _ _ _ _ h ?_
        intro m hm c hc
        rcases List.mem_append.mp hm with hm | hm
        · obtain ⟨x, hx, hkx⟩ := hinv m hm c hc
          exact ⟨x, Finset.mem_union_left _ hx, hkx⟩
        · rw [List.mem_singleton] at hm
          subst hm
          rcases dedupKeysAux_cover (expand m) (keysOf gurls) c hc with hk | ⟨x, hx, hkx⟩
          · obtain ⟨x, hx, hkx⟩ := Finset.mem_image.mp hk
            exact ⟨x, Finset.mem_union_left _ hx, hkx⟩
          · exact ⟨x, Finset.mem_union_right _ (List.mem_toFinset.mpr hx), hkx⟩

theorem crawlLoop_processes_all (expand : GopherURL → List GopherURL) :
    ∀ (fuel : ℕ) (ws : List GopherURL) (gurls : Finset GopherURL) (depth : Int)
      (log : List GopherURL) (S : Finset GopherURL) (L : List GopherURL),
      crawlLoop expand none fuel ws gurls depth log = some (S, L) →
      ∀ m ∈ ws, m ∈ L := by
  intro fuel
  induction fuel with
  | zero => intro ws gurls depth log S L h; simp [crawlLoop] at h
  | succ n ih =>
    intro ws gurls depth log S L h
    cases ws with
    | nil => intro m hm; simp at hm
    | cons menu rest =>
      rw [crawlLoop] at h
      rw [if_neg (by simp [depthExceeded])] at h
      intro m hm
      rcases List.mem_cons.mp hm with hm | hm
      · subst hm
        exact crawlLoop_log_mem expand none _ _ _ _ _ _ _ h m (List.mem_append_right _ (List.mem_singleton_self m))
      · exact ih _ _ _ _ _ _ h m (List.mem_append_left _ hm)

theorem pairwise_keys_eq : ∀ (l : List GopherURL),
    l.Pairwise (fun a b => a.gkey ≠ b.gkey) →
    ∀ a ∈ l, ∀ b ∈ l, a.gkey = b.gkey → a = b := by
  intro l
  induction l with
  | nil => intro _ a ha; simp at ha
  | cons x t ih =>
    intro hp a ha b hb hab
    rw [List.pairwise_cons] at hp
    rcases List.mem_cons.mp ha with ha' | ha' <;> rcases List.mem_cons.mp hb with hb' | hb'
    · rw [ha', hb']
    · subst ha'
      exact absurd hab (hp.1 b hb')
    · subst hb'
      exact absurd hab.symm (hp.1 a ha')
    · exact ih hp.2 a ha' b hb' hab

theorem crawlLoop_keyNodup (expand : GopherURL → List GopherURL) (md : Option Int) :
    ∀ (fuel : ℕ) (ws : List GopherURL) (gurls : Finset GopherURL) (depth : Int)
      (log : List GopherURL) (S : Finset GopherURL) (L : List GopherURL),
      crawlLoop expand md fuel ws gurls depth log = some (S, L) →
      SetKeyNodup gurls → SetKeyNodup S := by
  intro fuel
  induction fuel with
  | zero => intro ws gurls depth log S L h; simp [crawlLoop] at h
  | succ n ih =>
    intro ws gurls depth log S L h hnd
    cases ws with
    | nil =>
      simp only [crawlLoop, Option.some.injEq, Prod.mk.injEq] at h
      rw [← h.1]
      exact hnd
    | cons menu rest =>
      rw [crawlLoop] at h
      by_cases hd : depthExceeded depth md = true
      · rw [if_pos hd] at h
        simp only [Option.some.injEq, Prod.mk.injEq] at h
        rw [← h.1]
        exact hnd
      · rw [if_neg hd] at h
        refine ih _ _ _ _ _ _ h ?_
        intro a ha b hb hab
        have hpw := dedupKeysAux_pairwise (expand menu) (keysOf gurls)
        rcases Finset.mem_union.mp ha with ha' | ha' <;>
          rcases Finset.mem_union.mp hb with hb' | hb'
        · exact hnd a ha' b hb' hab
        · exfalso
          apply dedupKeysAux_key_not_seen _ _ _ (List.mem_toFinset.mp hb')
          rw [← hab]
          exact Finset.mem_image_of_mem GopherURL.gkey ha'
        · exfalso
          apply dedupKeysAux_key_not_seen _ _ _ (List.mem_toFinset.mp ha')
          rw [hab]
          exact Finset.mem_image_of_mem GopherURL.gkey hb'
        · exact pairwise_keys_eq _ hpw a (List.mem_toFinset.mp ha')
            b (List.mem_toFinset.mp hb') hab

theorem toFinset_image_card_of_pairwise {l : List GopherURL}
    (hp : l.Pairwise (fun a b => a.gkey ≠ b.gkey)) :
    (l.toFinset.image GopherURL.gkey).card = l.length := by
  have hinj : Set.InjOn GopherURL.gkey ↑l.toFinset := by
    intro a ha b hb hab
    exact pairwise_keys_eq _ hp a (List.mem_toFinset.mp ha) b (List.mem_toFinset.mp hb) hab
  rw [Finset.card_image_of_injOn hinj, List.toFinset_card_of_nodup (nodup_of_pairwise_keys hp)]

theorem crawlLoop_isSome_of_fuel (expand : GopherURL → List GopherURL) (md : Option Int)
    (univ : Finset GopherURL)
    (hexp : ∀ g : GopherURL, ∀ c ∈ expand g, c ∈ univ) :
    ∀ (fuel : ℕ) (ws : List GopherURL) (gurls : Finset GopherURL) (depth : Int)
      (log : List GopherURL),
      ws.length + 2 * (keysOf univ \ keysOf gurls).card < fuel →
      (crawlLoop expand md fuel ws gurls depth log).isSome = true := by
  intro fuel
  induction fuel with
  | zero => intro ws gurls depth log h; exact absurd h (Nat.not_lt_zero _)
  | succ n ih =>
    intro ws gurls depth log h
    cases ws with
    | nil => simp [crawlLoop]
    | cons menu rest =>
      rw [crawlLoop]
      by_cases hd : depthExceeded depth md = true
      · rw [if_pos hd]; rfl
      · rw [if_neg hd]
        show (crawlLoop expand md n
          (rest ++ (dedupKeysAux (keysOf gurls) (expand menu)).filter GopherURL.is_menu)
          (gurls ∪ (dedupKeysAux (keysOf gurls) (expand menu)).toFinset)
          (depth + 1) (log ++ [menu])).isSome = true
        apply ih
        have hpw := dedupKeysAux_pairwise (expand menu) (keysOf gurls)
        have hlen_card := toFinset_image_card_of_pairwise hpw
        have hsubU : (dedupKeysAux (keysOf gurls) (expand menu)).toFinset.image GopherURL.gkey ⊆
            keysOf univ \ keysOf gurls := by
          intro k hk
          obtain ⟨x, hx, rfl⟩ := Finset.mem_image.mp hk
          have hxl := List.mem_toFinset.mp hx
          refine Finset.mem_sdiff.mpr ⟨?_, ?_⟩
          · exact Finset.mem_image_of_mem _ (hexp menu _ (dedupKeysAux_subset _ _ _ hxl))
          · exact dedupKeysAux_key_not_seen _ _ _ hxl
        have hkeys_union : keysOf (gurls ∪ (dedupKeysAux (keysOf gurls) (expand menu)).toFinset) =
            keysOf gurls ∪ (dedupKeysAux (keysOf gurls) (expand menu)).toFinset.image GopherURL.gkey :=
          Finset.image_union _ _
        have hsd : keysOf univ \ keysOf (gurls ∪ (dedupKeysAux (keysOf gurls) (expand menu)).toFinset) =
            (keysOf univ \ keysOf gurls) \
              ((dedupKeysAux (keysOf gurls) (expand menu)).toFinset.image GopherURL.gkey) := by
          rw [hkeys_union]
          ext k
          simp only [Finset.mem_sdiff, Finset.mem_union]
          tauto
        have hcard : ((keysOf univ \ keysOf gurls) \
            ((dedupKeysAux (keysOf gurls) (expand menu)).toFinset.image GopherURL.gkey)).card =
            (keysOf univ \ keysOf gurls).card - (dedupKeysAux (keysOf gurls) (expand menu)).length := by
          rw [Finset.card_sdiff hsubU, hlen_card]
        have hfilter : ((dedupKeysAux (keysOf gurls) (expand menu)).filter GopherURL.is_menu).length ≤
            (dedupKeysAux (keysOf gurls) (expand menu)).length := List.length_filter_le _ _
        have hle : (dedupKeysAux (keysOf gurls) (expand menu)).length ≤
            (keysOf univ \ keysOf gurls).card := by
          rw [← hlen_card]
          exact Finset.card_le_card hsubU
        rw [List.length_append, hsd, hcard]
        simp only [List.length_cons] at h
        omega

theorem crawlLoop_discovered (expand : GopherURL → List GopherURL) (md : Option Int)
    (g0 : GopherURL) :
    ∀ (fuel : ℕ) (ws : List GopherURL) (gurls : Finset GopherURL) (depth : Int)
      (log : List GopherURL) (S : Finset GopherURL) (L : List GopherURL),
      crawlLoop expand md fuel ws gurls depth log = some (S, L) →
      (g0 ∈ gurls → ∃ m ∈ log, g0 ∈ expand m) →
      g0 ∈ S → ∃ m ∈ L, g0 ∈ expand m := by
  intro fuel
  induction fuel with
  | zero => intro ws gurls depth log S L h; simp [crawlLoop] at h
  | succ n ih =>
    intro ws gurls depth log S L h hinv hS
    cases ws with
    | nil =>
      simp only [crawlLoop, Option.some.injEq, Prod.mk.injEq] at h
      rw [← h.2]
      exact hinv (h.1 ▸ hS)
    | cons menu rest =>
      rw [crawlLoop] at h
      by_cases hd : depthExceeded depth md = true
      · rw [if_pos hd] at h
        simp only [Option.some.injEq, Prod.mk.injEq] at h
        rw [← h.2]
        exact hinv (h.1 ▸ hS)
      · rw [if_neg hd] at h
        refine ih _ _ _ _ _ _ h ?_ hS
        intro hg
        rcases Finset.mem_union.mp hg with hg' | hg'
        · obtain ⟨m, hm, hx⟩ := hinv hg'
          exact ⟨m, List.mem_append_left _ hm, hx⟩
        · exact ⟨menu, List.mem_append_right _ (List.mem_singleton_self _),
            dedupKeysAux_subset _ _ _ (List.mem_toFinset.mp hg')⟩

theorem keysOf_union_left {s t : Finset GopherURL} : keysOf s ⊆ keysOf (s ∪ t) :=
  Finset.image_subset_image Finset.subset_union_left

theorem crawlLoop_countKey (expand : GopherURL → List GopherURL) (md : Option Int)
    (k0 : PyStr × PyStr × Bool) :
    ∀ (fuel : ℕ) (ws : List GopherURL) (gurls : Finset GopherURL) (depth : Int)
      (log : List GopherURL) (S : Finset GopherURL) (L : List GopherURL),
      crawlLoop expand md fuel ws gurls depth log = some (S, L) →
      (∀ k, k ≠ k0 → countKey k ws + countKey k log ≤ 1) →
      (∀ x ∈ ws, x.gkey ≠ k0 → x.gkey ∈ keysOf gurls) →
      (∀ x ∈ log, x.gkey ≠ k0 → x.gkey ∈ keysOf gurls) →
      ∀ k, k ≠ k0 → countKey k L ≤ 1 := by
  intro fuel
  induction fuel with
  | zero => intro ws gurls depth log S L h; simp [crawlLoop] at h
  | succ n ih =>
    intro ws gurls depth log S L h h1 h2 h3
    cases ws with
    | nil =>
      simp only [crawlLoop, Option.some.injEq, Prod.mk.injEq] at h
      intro k hk
      have hold := h1 k hk
      have h0 : countKey k ([] : List GopherURL) = 0 := rfl
      rw [← h.2]
      omega
    | cons menu rest =>
      rw [crawlLoop] at h
      by_cases hd : depthExceeded depth md = true
      · rw [if_pos hd] at h
        simp only [Option.some.injEq, Prod.mk.injEq] at h
        intro k hk
        have hold := h1 k hk
        rw [← h.2]
        omega
      · rw [if_neg hd] at h
        have hpw := dedupKeysAux_pairwise (expand menu) (keysOf gurls)
        refine ih _ _ _ _ _ _ h ?_ ?_ ?_
        · intro k hk
          have hold := h1 k hk
          rw [countKey, countKey, List.countP_cons] at hold
          rw [countKey, countKey, List.countP_append, List.countP_append,
            List.countP_cons, List.countP_nil]
          by_cases hc : ∃ x ∈ (dedupKeysAux (keysOf gurls) (expand menu)).filter
              GopherURL.is_menu, x.gkey = k
          · obtain ⟨x, hxf, hxk⟩ := hc
            have hxfresh := (List.mem_filter.mp hxf).1
            have hknot : k ∉ keysOf gurls := by
              rw [← hxk]
              exact dedupKeysAux_key_not_seen _ _ _ hxfresh
            have hrest : rest.countP (fun x => decide (x.gkey = k)) = 0 := by
              rw [List.countP_eq_zero]
              intro y hy
              simp only [decide_eq_true_eq]
              intro hyk
              exact hknot (hyk ▸ h2 y (List.mem_cons_of_mem _ hy) (hyk.symm ▸ hk))
            have hlog : log.countP (fun x => decide (x.gkey = k)) = 0 := by
              rw [List.countP_eq_zero]
              intro y hy
              simp only [decide_eq_true_eq]
              intro hyk
              exact hknot (hyk ▸ h3 y hy (hyk.symm ▸ hk))
            have hmenu : ¬ (menu.gkey = k) := fun hmk =>
              hknot (hmk ▸ h2 menu (List.mem_cons_self _ _) (hmk.symm ▸ hk))
            have hm0 : (if decide (menu.gkey = k) = true then 1 else 0) = 0 := by
              simp [hmenu]
            have hfil : ((dedupKeysAux (keysOf gurls) (expand menu)).filter
                GopherURL.is_menu).countP (fun x => decide (x.gkey = k)) ≤ 1 :=
              countP_key_le_one k _ (List.Pairwise.sublist (List.filter_sublist _) hpw)
            omega
          · push_neg at hc
            have hfil0 : ((dedupKeysAux (keysOf gurls) (expand menu)).filter
                GopherURL.is_menu).countP (fun x => decide (x.gkey = k)) = 0 := by
              rw [List.countP_eq_zero]
              intro y hy
              simpa using hc y hy
            omega
        · intro x hx hxk
          rcases List.mem_append.mp hx with hx' | hx'
          · exact keysOf_union_left (h2 x (List.mem_cons_of_mem _ hx') hxk)
          · exact Finset.mem_image_of_mem _ (Finset.mem_union_right _
              (List.mem_toFinset.mpr (List.mem_filter.mp hx').1))
        · intro x hx hxk
          rcases List.mem_append.mp hx with hx' | hx'
          · exact keysOf_union_left (h3 x hx' hxk)
          · rw [List.mem_singleton] at hx'
            subst hx'
            exact keysOf_union_left (h2 x (List.mem_cons_self _ _) hxk)

theorem crawlLoop_exceeded (expand : GopherURL → List GopherURL) (md : Option Int)
    (f : ℕ) (ws : List GopherURL) (gurls : Finset GopherURL) (depth : Int)
    (log : List GopherURL) (hd : depthExceeded depth md = true) :
    crawlLoop expand md (f + 1) ws gurls depth log = some (gurls, log) := by
  cases ws with
  | nil => rw [crawlLoop]
  | cons menu rest => rw [crawlLoop, if_pos hd]

theorem crawlLoop_maxdepth0_step (expand : GopherURL → List GopherURL)
    (f : ℕ) (menu : GopherURL) (rest : List GopherURL) (gurls : Finset GopherURL)
    (log : List GopherURL) :
    crawlLoop expand (some 0) (f + 2) (menu :: rest) gurls 0 log =
      some (gurls ∪ (dedupKeysAux (keysOf gurls) (expand menu)).toFinset, log ++ [menu]) := by
  rw [crawlLoop, if_neg (by decide)]
  exact crawlLoop_exceeded expand (some 0) f _ _ _ _ (by decide)

theorem filter_key_card_one {S : Finset GopherURL} (hnd : SetKeyNodup S)
    {x : GopherURL} (hx : x ∈ S) :
    (S.filter (fun y => y.gkey = x.gkey)).card = 1 := by
  rw [Finset.card_eq_one]
  refine ⟨x, ?_⟩
  ext y
  simp only [Finset.mem_filter, Finset.mem_singleton]
  constructor
  · rintro ⟨hy, hky⟩
    exact hnd y hy x hx hky
  · rintro rfl
    exact ⟨hx, rfl⟩

/-- C2 counterexample: on a root menu with no children at all, the crawl's
expansion log is `[root, root]` — the root is fetched for expansion twice
(once to seed the traversal and once more as the worklist entry appended
after the menu children), violating "every resource — including the root —
is fetched for expansion at most once". -/
theorem c2_counterexample_root_expanded_twice :
    (crawl (fun _ => []) none urlRoot 5).map (fun p => p.2) = some [urlRoot, urlRoot] ∧
      countKey urlRoot.gkey [urlRoot, urlRoot] = 2 := by
  decide

/-- C2 (amended): in any completed crawl, every resource identity *other
than the root's* appears at most once in the expansion log (presence in the
visited set gates re-queueing, and each worklist entry is processed at most
once); only the root is exempt — it is re-queued unconditionally as the last
seed worklist entry, so it is fetched for expansion a second time whenever
the depth bound has not already halted the loop (as in the counterexample's
unbounded crawl), and can be fetched once more when the root menu links to
itself. -/
theorem c2_amended_nonroot_expanded_at_most_once (expand : GopherURL → List GopherURL)
    (md : Option Int) (root : GopherURL) (fuel : ℕ) (S : Finset GopherURL)
    (L : List GopherURL) (h : crawl expand md root fuel = some (S, L)) :
    ∀ g : GopherURL, g.gkey ≠ root.gkey → countKey g.gkey L ≤ 1 := by
  intro g hg
  rw [crawl] at h
  refine crawlLoop_countKey expand md root.gkey _ _ _ _ _ _ _ h ?_ ?_ ?_ g.gkey hg
  · intro k hk
    simp only [countKey, List.countP_append]
    have hpw := dedupKeysAux_pairwise (expand root) (∅ : Finset _)
    have hfil : ((dedupKeysAux ∅ (expand root)).filter GopherURL.is_menu).countP
        (fun x => decide (x.gkey = k)) ≤ 1 :=
      countP_key_le_one k _ (List.Pairwise.sublist (List.filter_sublist _) hpw)
    have hroot0 : ([root] : List GopherURL).countP (fun x => decide (x.gkey = k)) = 0 := by
      simp [List.countP_cons, Ne.symm hk]
    omega
  · intro x hx hxk
    rcases List.mem_append.mp hx with hx' | hx'
    · exact Finset.mem_image_of_mem _ (List.mem_toFinset.mpr (List.mem_filter.mp hx').1)
    · rw [List.mem_singleton] at hx'
      exact absurd (congrArg GopherURL.gkey hx') hxk
  · intro x hx hxk
    rw [List.mem_singleton] at hx
    exact absurd (congrArg GopherURL.gkey hx) hxk

/-- C2 witness: the amended bound evaluated on the childless-root crawl for
a non-root resource. -/
theorem c2_amended_nonroot_expanded_at_most_once_witness :
    countKey (GopherURL.gkey urlMenuSub) [urlRoot, urlRoot] ≤ 1 :=
  c2_amended_nonroot_expanded_at_most_once (fun _ => []) none urlRoot 5 ∅
    [urlRoot, urlRoot] (by decide) urlMenuSub (by decide)

/-- C3 counterexample: with `max_depth = 0` and the chain
`urlRoot → urlMenuSub → urlFileDeep`, the crawl still expands the queued menu
`urlMenuSub` (the depth check `depth > maxdepth` only fires on the *next*
iteration), so the result contains `urlFileDeep`, which is not a direct child
of the root. -/
theorem c3_counterexample_depth_zero_expands_menu :
    (crawl expandChain (some 0) urlRoot 10).map (fun p => decide (urlFileDeep ∈ p.1)) =
        some true ∧
      urlFileDeep ∉ expandChain urlRoot ∧
      (crawl expandChain (some 0) urlRoot 10).map (fun p => p.2) = some [urlRoot, urlMenuSub] := by
  decide

/-- C3 (amended): with `max_depth = 0` the crawl expands the root and then
exactly one worklist entry — the first queued menu child, or the root again
when there is none — before the depth bound stops it: the result is the
root's direct children together with the new children of that single entry,
and the expansion log is `[root, that entry]`. -/
theorem c3_amended_depth_zero_one_expansion (expand : GopherURL → List GopherURL)
    (root : GopherURL) (fuel : ℕ) (hf : 2 ≤ fuel) :
    crawl expand (some 0) root fuel =
      some ((dedupKeysAux ∅ (expand root)).toFinset ∪
          (dedupKeysAux (keysOf (dedupKeysAux ∅ (expand root)).toFinset)
            (expand (firstQueuedMenu expand root))).toFinset,
        [root, firstQueuedMenu expand root]) := by
  obtain ⟨f, rfl⟩ : ∃ f, fuel = f + 2 := ⟨fuel - 2, by omega⟩
  rw [crawl, firstQueuedMenu]
  cases hcf : (dedupKeysAux ∅ (expand root)).filter GopherURL.is_menu with
  | nil =>
    rw [List.nil_append, List.headD_nil]
    exact crawlLoop_maxdepth0_step expand f root [] _ [root]
  | cons m tl =>
    rw [List.cons_append, List.headD_cons]
    exact crawlLoop_maxdepth0_step expand f m (tl ++ [root]) _ [root]

/-- C3 witness: the amended description evaluated on the chain graph. -/
theorem c3_amended_depth_zero_one_expansion_witness :
    crawl expandChain (some 0) urlRoot 10 =
      some ((dedupKeysAux ∅ (expandChain urlRoot)).toFinset ∪
          (dedupKeysAux (keysOf (dedupKeysAux ∅ (expandChain urlRoot)).toFinset)
            (expandChain (firstQueuedMenu expandChain urlRoot))).toFinset,
        [urlRoot, firstQueuedMenu expandChain urlRoot]) :=
  c3_amended_depth_zero_one_expansion expandChain urlRoot 10 (by norm_num)

/-- C4 counterexample: a root whose only (file) child is `urlFileChild`: the
returned set is `{urlFileChild}` — it contains the discovered child but *not*
the root itself, because `crawl` seeds `gurls` with the root's children only
and never adds the root. -/
theorem c4_counterexample_root_not_returned :
    (crawl expandSingleFile none urlRoot 5).map (fun p => decide (urlRoot ∈ p.1)) = some false ∧
      (crawl expandSingleFile none urlRoot 5).map (fun p => decide (urlFileChild ∈ p.1)) =
        some true := by
  decide

/-- C4 (amended): in any completed crawl, the root is expanded (it heads the
expansion log); every expanded resource's discovered children are represented
in the returned set (by identity key), in particular all direct children of
the root; but the root itself belongs to the returned set only if some
expanded menu links back to it — the visited set is seeded with the root's
direct child set *without* the root. -/
theorem c4_amended_result_membership (expand : GopherURL → List GopherURL) (md : Option Int)
    (root : GopherURL) (fuel : ℕ) (S : Finset GopherURL) (L : List GopherURL)
    (h : crawl expand md root fuel = some (S, L)) :
    root ∈ L ∧
      (∀ m ∈ L, ∀ c ∈ expand m, ∃ x ∈ S, x.gkey = c.gkey) ∧
      (root ∈ S → ∃ m ∈ L, root ∈ expand m) := by
  rw [crawl] at h
  have hseed : ∀ m ∈ [root], ∀ c ∈ expand m,
      ∃ x ∈ (dedupKeysAux ∅ (expand root)).toFinset, x.gkey = c.gkey := by
    intro m hm c hc
    rw [List.mem_singleton] at hm
    subst hm
    rcases dedupKeysAux_cover (expand m) ∅ c hc with hk | ⟨x, hx, hkx⟩
    · simp at hk
    · exact ⟨x, List.mem_toFinset.mpr hx, hkx⟩
  refine ⟨?_, ?_, ?_⟩
  · exact crawlLoop_log_mem expand md _ _ _ _ _ _ _ h root (List.mem_singleton_self _)
  · exact crawlLoop_covered expand md _ _ _ _ _ _ _ h hseed
  · refine crawlLoop_discovered expand md root _ _ _ _ _ _ _ h ?_
    intro hg
    exact ⟨root, List.mem_singleton_self _,
      dedupKeysAux_subset _ _ _ (List.mem_toFinset.mp hg)⟩

/-- C4 witness: the amended membership facts evaluated on the single-file
graph (whose crawl returns `{urlFileChild}` with log `[urlRoot, urlRoot]`). -/
theorem c4_amended_result_membership_witness :
    urlRoot ∈ [urlRoot, urlRoot] ∧
      (∀ m ∈ [urlRoot, urlRoot], ∀ c ∈ expandSingleFile m,
        ∃ x ∈ ({urlFileChild} : Finset GopherURL), x.gkey = c.gkey) ∧
      (urlRoot ∈ ({urlFileChild} : Finset GopherURL) →
        ∃ m ∈ [urlRoot, urlRoot], urlRoot ∈ expandSingleFile m) :=
  c4_amended_result_membership expandSingleFile none urlRoot 5 {urlFileChild}
    [urlRoot, urlRoot] (by decide)

/-- C6 counterexample: a finite menu graph containing the cycle
`urlRoot ↔ /b` in which the root menu carries both a menu-typed and a
file-typed link to the same selector `/b`: the crawl terminates, but the
returned set contains *two* distinct members with `/b`'s host and path — the
resource identity `B` occurs twice, because the eq/hash mismatch lets both
type-variants into the visited set. -/
theorem c6_counterexample_duplicate_identity :
    (crawl expandCycleDup none urlRoot 10).map
        (fun p => (p.1.filter (fun x => x.host = urlMenuB.host ∧ x.path = urlMenuB.path)).card) =
      some 2 ∧
      urlFileB.host = urlMenuB.host ∧ urlFileB.path = urlMenuB.path ∧ urlFileB ≠ urlMenuB ∧
      (crawl expandCycleDup none urlRoot 10).map (fun p => decide (urlMenuB ∈ p.1)) = some true ∧
      (crawl expandCycleDup none urlRoot 10).map (fun p => decide (urlFileB ∈ p.1)) = some true := by
  decide

/-- C6 (amended): for every finite menu graph (`expand` confined to a finite
universe) containing a cycle — the root menu `A` links to a menu `B`, and
every resource with `B`'s identity links back to `A` — the crawl terminates
within the stated fuel bound, and the returned set contains exactly one
member with `A`'s identity key and exactly one with `B`'s: "exactly once"
holds per (host, path, menu-status) key, not per (host, path) alone (see the
counterexample). -/
theorem c6_amended_cycle_terminates_unique (expand : GopherURL → List GopherURL)
    (univ : Finset GopherURL) (A B : GopherURL)
    (hexp : ∀ g : GopherURL, ∀ c ∈ expand g, c ∈ univ)
    (hBmenu : B.is_menu = true)
    (hAB : B ∈ expand A)
    (hBA : ∀ g : GopherURL, g.gkey = B.gkey → A ∈ expand g) :
    ∃ S L, crawl expand none A (3 * (keysOf univ).card + 2) = some (S, L) ∧
      (S.filter (fun x => x.gkey = A.gkey)).card = 1 ∧
      (S.filter (fun x => x.gkey = B.gkey)).card = 1 := by
  have hpw := dedupKeysAux_pairwise (expand A) (∅ : Finset (PyStr × PyStr × Bool))
  have hchlen : (dedupKeysAux ∅ (expand A)).length ≤ (keysOf univ).card := by
    rw [← toFinset_image_card_of_pairwise hpw]
    apply Finset.card_le_card
    intro k hk
    obtain ⟨x, hx, rfl⟩ := Finset.mem_image.mp hk
    exact Finset.mem_image_of_mem _
      (hexp A _ (dedupKeysAux_subset _ _ _ (List.mem_toFinset.mp hx)))
  have hfuel : ((dedupKeysAux ∅ (expand A)).filter GopherURL.is_menu ++ [A]).length +
      2 * (keysOf univ \ keysOf (dedupKeysAux ∅ (expand A)).toFinset).card <
      3 * (keysOf univ).card + 2 := by
    have hflt := List.length_filter_le GopherURL.is_menu (dedupKeysAux ∅ (expand A))
    have hsd : (keysOf univ \ keysOf (dedupKeysAux ∅ (expand A)).toFinset).card ≤
        (keysOf univ).card := Finset.card_le_card Finset.sdiff_subset
    rw [List.length_append]
    simp only [List.length_cons, List.length_nil]
    omega
  have hsome := crawlLoop_isSome_of_fuel expand none univ hexp
    (3 * (keysOf univ).card + 2)
    ((dedupKeysAux ∅ (expand A)).filter GopherURL.is_menu ++ [A])
    (dedupKeysAux ∅ (expand A)).toFinset 0 [A] hfuel
  rw [Option.isSome_iff_exists] at hsome
  obtain ⟨⟨S, L⟩, hp⟩ := hsome
  have hsub : (dedupKeysAux ∅ (expand A)).toFinset ⊆ S :=
    crawlLoop_subset expand none _ _ _ _ _ _ _ hp
  rcases dedupKeysAux_cover (expand A) ∅ B hAB with hk | ⟨Br, hBr, hBrk⟩
  · simp at hk
  have hBrmenu : Br.is_menu = true := by
    have := congrArg (fun t : PyStr × PyStr × Bool => t.2.2) hBrk
    simp only [GopherURL.gkey] at this
    rw [this]
    exact hBmenu
  have hBrws : Br ∈ (dedupKeysAux ∅ (expand A)).filter GopherURL.is_menu ++ [A] :=
    List.mem_append_left _ (List.mem_filter.mpr ⟨hBr, hBrmenu⟩)
  have hBrL : Br ∈ L := crawlLoop_processes_all expand _ _ _ _ _ _ _ hp Br hBrws
  have hseed : ∀ m ∈ [A], ∀ c ∈ expand m,
      ∃ x ∈ (dedupKeysAux ∅ (expand A)).toFinset, x.gkey = c.gkey := by
    intro m hm c hc
    rw [List.mem_singleton] at hm
    subst hm
    rcases dedupKeysAux_cover (expand m) ∅ c hc with hk | ⟨x, hx, hkx⟩
    · simp at hk
    · exact ⟨x, List.mem_toFinset.mpr hx, hkx⟩
  have hcov := crawlLoop_covered expand none _ _ _ _ _ _ _ hp hseed
  have hArep : ∃ x ∈ S, x.gkey = A.gkey := hcov Br hBrL A (hBA Br hBrk)
  have hBrep : ∃ x ∈ S, x.gkey = B.gkey := ⟨Br, hsub (List.mem_toFinset.mpr hBr), hBrk⟩
  have hnd : SetKeyNodup S := by
    refine crawlLoop_keyNodup expand none _ _ _ _ _ _ _ hp ?_
    intro a ha b hb hab
    exact pairwise_keys_eq _ hpw a (List.mem_toFinset.mp ha) b (List.mem_toFinset.mp hb) hab
  obtain ⟨xA, hxA, hkA⟩ := hArep
  obtain ⟨xB, hxB, hkB⟩ := hBrep
  refine ⟨S, L, hp, ?_, ?_⟩
  · rw [← hkA]
    exact filter_key_card_one hnd hxA
  · rw [← hkB]
    exact filter_key_card_one hnd hxB

/-- C6 witness: the amended statement evaluated on the plain two-menu cycle
`urlRoot ↔ /b`. -/
theorem c6_amended_cycle_terminates_unique_witness :
    ∃ S L, crawl expandCycleW none urlRoot
        (3 * (keysOf ({urlMenuB, urlRoot} : Finset GopherURL)).card + 2) = some (S, L) ∧
      (S.filter (fun x => x.gkey = urlRoot.gkey)).card = 1 ∧
      (S.filter (fun x => x.gkey = urlMenuB.gkey)).card = 1 :=
  c6_amended_cycle_terminates_unique expandCycleW {urlMenuB, urlRoot} urlRoot urlMenuB
    (by
      intro g c hc
      unfold expandCycleW at hc
      split_ifs at hc
      · rw [List.mem_singleton] at hc
        subst hc
        decide
      · rw [List.mem_singleton] at hc
        subst hc
        decide
      · simp at hc)
    (by decide)
    (by decide)
    (by
      intro g hk
      have hpath : g.path = "/b".data := congrArg (fun t : PyStr × PyStr × Bool => t.2.1) hk
      have hpath2 : ¬ (g.path = "/".data) := by
        rw [hpath]
        decide
      unfold expandCycleW
      rw [if_neg hpath2, if_pos hpath]
      exact List.mem_singleton_self _)
